import Mathlib

/-!
Verification of the natural-language specification of
`laikaboss/modules/meta_pe.py` (the `META_PE` module) against a shallow
embedding of its code.

Conventions of the embedding:
* A byte buffer (Python 2 `str`) is a `List Nat`, each element a byte value.
* Python dictionaries keyed by strings are association lists preserving
  insertion order; assignment to an existing key overwrites in place.
* Python truthiness of optional values (`if imp.get('Ordinal'):`) is made
  explicit: `None`/`0`/`''` are falsy.
* Exception control flow of `META_PE._run` is embedded as a step model over
  the sequence of metadata fields the function populates, each step carrying
  the exception (if any) its computation raises; the `try/except` structure
  of the source (outer `except pefile.PEFormatError`, the re-raising handlers
  of the exports and resources blocks, and the bare handler of the imphash
  block) is reproduced exactly.
-/

/-! ### RSDS extraction (`META_PE.parseRSDS`, meta_pe.py lines 207-242)

The source scans `scanObject.buffer` with the Python 2 regex
`re.compile('RSDS.{24,1024}\\.pdb')` via `findall`, then decodes the last
match.  `.` matches any byte except the newline byte `0x0A`; `{24,1024}` is
greedy; `findall` returns non-overlapping matches scanning left to right. -/

/-- The four signature bytes of `RSDS`. -/
def rsdsSig : List Nat := [82, 83, 68, 83]

/-- The four bytes of `.pdb`. -/
def pdbSig : List Nat := [46, 112, 100, 98]

/-- Python slicing `buf[s : s+len]` (clamped at the end of the buffer). -/
def listAt (buf : List Nat) (s len : Nat) : List Nat := (buf.drop s).take len

/-- The buffer carries the literal bytes `RSDS` at offset `s`. -/
def hasRSDS (buf : List Nat) (s : Nat) : Bool := listAt buf s 4 == rsdsSig

/-- The buffer carries the literal bytes `.pdb` at offset `s`. -/
def hasPdb (buf : List Nat) (s : Nat) : Bool := listAt buf s 4 == pdbSig

/-- All `k` bytes starting at offset `s` are acceptable to the regex dot,
i.e. none is the newline byte `0x0A`. -/
def gapNLFree (buf : List Nat) (s k : Nat) : Bool :=
  (listAt buf s k).all (fun b => !(b == 10))

/-- A gap width `k` is valid for a regex match starting at `s`: the
quantifier bound `{24,1024}` holds, the match fits in the buffer, the gap is
newline-free and is followed by the literal `.pdb`. -/
def validGap (buf : List Nat) (s k : Nat) : Bool :=
  decide (24 ≤ k) && decide (k ≤ 1024) && decide (s + 8 + k ≤ buf.length)
    && gapNLFree buf (s + 4) k && hasPdb buf (s + 4 + k)

/-- Greedy backtracking of `.{24,1024}`: the largest valid gap width not
exceeding `hi`. -/
def bestGapFrom (buf : List Nat) (s : Nat) : Nat → Option Nat
  | 0 => none
  | k + 1 => if validGap buf s (k + 1) then some (k + 1) else bestGapFrom buf s k

/-- The end offset (exclusive) of the regex match attempt at offset `s`:
the signature must be present, then the greedy gap search runs. -/
def matchEndAt (buf : List Nat) (s : Nat) : Option Nat :=
  if hasRSDS buf s then (bestGapFrom buf s 1024).map (fun k => s + 8 + k) else none

/-- Scanning as `re.findall`: try each start offset left to right; on a match,
emit the matched slice and continue at the match end (non-overlapping). -/
def rsdsScan (buf : List Nat) : Nat → Nat → List (List Nat)
  | 0, _ => []
  | fuel + 1, s =>
    if buf.length ≤ s then []
    else
      match matchEndAt buf s with
      | some e => listAt buf s (e - s) :: rsdsScan buf fuel e
      | none => rsdsScan buf fuel (s + 1)

/-- The call `rsds.findall(scanObject.buffer)` of the source. -/
def rsdsFindall (buf : List Nat) : List (List Nat) :=
  rsdsScan buf (buf.length + 1) 0

/-- One hexadecimal digit as `binascii.hexlify` prints it (lowercase). -/
def hexChar (n : Nat) : Char := Char.ofNat (if n < 10 then 48 + n else 87 + n)

/-- Python `binascii.hexlify`: two lowercase hex digits per byte. -/
def hexlify (bs : List Nat) : String :=
  String.mk ((bs.map (fun b => [hexChar (b / 16 % 16), hexChar (b % 16)])).flatten)

/-- Python `struct.unpack('<L', bs[0:4])[0]`: little-endian 32-bit read.  The
source only applies it to slices of length four (a regex match is at least
32 bytes long); shorter input is given a junk value. -/
def le32 (bs : List Nat) : Nat :=
  match bs with
  | a :: b :: c :: d :: _ => a + 256 * (b + 256 * (c + 256 * d))
  | _ => 0

/-- The decoded RSDS record: the `result` dict of `parseRSDS` when populated
(keys `guid`, `age`, `pdb`). -/
structure RSDSInfo where
  guid : String
  age : Nat
  pdb : List Nat
deriving DecidableEq

/-- Field decoding of `parseRSDS` applied to one regex match `m`:
`guid` from `m[4:8]`, `m[8:10]`, `m[10:12]`, `m[12:20]` hex groups joined by
hyphens, `age` little-endian from `m[20:24]`, `pdb` as `m[24:]`. -/
def decodeRSDS (m : List Nat) : RSDSInfo :=
  { guid := hexlify (listAt m 4 4) ++ "-" ++ hexlify (listAt m 8 2) ++ "-"
      ++ hexlify (listAt m 10 2) ++ "-" ++ hexlify (listAt m 12 8)
  , age := le32 (listAt m 20 4)
  , pdb := m.drop 24 }

/-- The method `META_PE.parseRSDS`: find all matches, decode the last one when it exists
and is truthy (a nonempty byte string); otherwise the empty result. -/
def parseRSDS (buf : List Nat) : Option RSDSInfo :=
  match (rsdsFindall buf).getLast? with
  | some m => if m.length = 0 then none else some (decodeRSDS m)
  | none => none

/-- Claim-side predicate, written from the claim's words: an occurrence of
the pattern `RSDS` + 24 to 1024 **arbitrary** bytes + `.pdb` starting at
offset `s` with gap width `k` (no newline restriction). -/
def specOccursArbAt (buf : List Nat) (s k : Nat) : Bool :=
  hasRSDS buf s && decide (24 ≤ k) && decide (k ≤ 1024)
    && decide (s + 8 + k ≤ buf.length) && hasPdb buf (s + 4 + k)

/-- Claim-side predicate: the buffer contains at least one occurrence of the
pattern with arbitrary gap bytes. -/
def specHasArbOcc (buf : List Nat) : Bool :=
  (List.range (buf.length + 1)).any (fun s =>
    (List.range 1025).any (fun k => specOccursArbAt buf s k))

/-- Amended claim-side predicate: an occurrence whose gap bytes are
newline-free, exactly what the source's regex dot accepts. -/
def specOccursAt (buf : List Nat) (s k : Nat) : Bool :=
  hasRSDS buf s && validGap buf s k

/-- The buffer contains at least one newline-free occurrence. -/
def specHasOcc (buf : List Nat) : Bool :=
  (List.range (buf.length + 1)).any (fun s =>
    (List.range 1025).any (fun k => specOccursAt buf s k))

/-! ### Rich header (`META_PE.parseRich`, meta_pe.py lines 244-262)

`parseRich` consumes `pe.RICH_HEADER`, the decoded Rich block supplied by the
wrapped pefile library: `None` when absent, otherwise an object carrying
`values` (the decoded 32-bit words) and `checksum`.  The loop
`for x in range(0, len(values), 2)` reads `values[x]` and `values[x + 1]`;
on an odd-length list the access `values[x + 1]` raises `IndexError`. -/

/-- The object `pe.RICH_HEADER` when present: the decoded 32-bit words and checksum. -/
structure RichHeaderData where
  values : List Nat
  checksum : Nat
deriving DecidableEq

/-- One element of the `data` list of `parseRich` (dict keys `Id`,
`Version`, `Count`). -/
structure RichEntry where
  toolId : Nat
  version : Nat
  count : Nat
deriving DecidableEq

/-- The populated `result` dict of `parseRich` (keys `Rich Header Values`
and `Checksum`). -/
structure RichResult where
  entries : List RichEntry
  checksum : Nat
deriving DecidableEq

/-- The loop of `parseRich`: one `(values[x] >> 16, values[x] & 0xffff,
values[x+1])` triple per pair of words; `none` models the `IndexError`
raised on an odd-length value list. -/
def richPairs : List Nat → Option (List RichEntry)
  | [] => some []
  | [_] => none
  | v :: c :: rest =>
    (richPairs rest).map
      (fun l => { toolId := v / 65536, version := v % 65536, count := c } :: l)

/-- The method `META_PE.parseRich`.  Outer `none` models an escaping `IndexError`;
`some none` is the empty dict returned when `pe.RICH_HEADER` is falsy. -/
def parseRich (rh : Option RichHeaderData) : Option (Option RichResult) :=
  match rh with
  | none => some none
  | some r =>
    match richPairs r.values with
    | none => none
    | some es => some (some { entries := es, checksum := r.checksum })

/-! ### Image magic (meta_pe.py lines 29-31, 42, 122-125)

`IMAGE_MAGIC_LOOKUP` is keyed by the integers `0x10b`, `0x20b`, `0x107`.
Line 42 initialises the local variable `imageMagic = ''` and no statement
ever reassigns it, so line 125 computes
`IMAGE_MAGIC_LOOKUP.get('', 'Unknown')`: a string key in an integer-keyed
dict, which always misses. -/

/-- A Python dict key that is either an integer or a string. -/
inductive PyDictKey
  | intKey (n : Nat)
  | strKey (s : String)
deriving DecidableEq

/-- The table `IMAGE_MAGIC_LOOKUP` (meta_pe.py lines 29-31). -/
def imageMagicLookupTable : List (Nat × String) :=
  [(0x10b, "32_BIT"), (0x20b, "64_BIT"), (0x107, "ROM_IMAGE")]

/-- The lookup `IMAGE_MAGIC_LOOKUP.get(key, default)`: integer keys are looked up in
the table; a string key can never equal an integer key and always yields the
default. -/
def imageMagicGet (k : PyDictKey) (dflt : String) : String :=
  match k with
  | .intKey n =>
    ((imageMagicLookupTable.find? (fun p => decide (p.1 = n))).map Prod.snd).getD dflt
  | .strKey _ => dflt

/-- The local variable `imageMagic` at line 125: assigned `''` at line 42
and never reassigned. -/
def imageMagicVariable : PyDictKey := PyDictKey.strKey ""

/-- The value the source stores under the `Image Magic` metadata key
(line 122-125) for a PE whose optional-header magic is `peMagic`.  The
parameter is unused by the source: the lookup key is the stale `imageMagic`
variable. -/
def imageMagicMetadata (peMagic : Nat) : String :=
  imageMagicGet imageMagicVariable "Unknown"

/-- The value the claim prescribes: look the optional-header magic itself up
in `IMAGE_MAGIC_LOOKUP` with default `Unknown`.  Written from the claim's
words for comparison with `imageMagicMetadata`. -/
def imageMagicSpec (peMagic : Nat) : String :=
  imageMagicGet (PyDictKey.intKey peMagic) "Unknown"

/-! ### Section table walk (meta_pe.py lines 48-70)

Each element of `dump_dict['PE Sections']` supplies a name (8 bytes, here
already a string, stripped of NUL bytes by the source), raw pointer and
sizes, the hashes and entropy computed by pefile, flags and a structure
label.  The numeric `Entropy` value is carried opaquely as a string: the
source never inspects it, it only copies it into the metadata record. -/

/-- One element of `dump_dict['PE Sections']`, restricted to the keys the
source reads. -/
structure PESection where
  nameValue : String
  ptr : Nat
  virtAddress : Nat
  virtSize : Nat
  size : Nat
  md5 : String
  sha1 : String
  sha256 : String
  entropy : String
  flags : List String
  structureRepr : String
deriving DecidableEq

/-- Python `'%X' %` digits, uppercase. -/
def hexCharU (n : Nat) : Char := Char.ofNat (if n < 10 then 48 + n else 55 + n)

/-- Uppercase hexadecimal digit list of `n` (most significant first). -/
def hexDigitsU : Nat → Nat → List Char
  | 0, _ => []
  | fuel + 1, n => if n = 0 then [] else hexDigitsU fuel (n / 16) ++ [hexCharU (n % 16)]

/-- Python `'0x%08X' % n`: `0x`, then the uppercase hex digits of `n` left-padded
with zeros to width eight. -/
def fmt08X (n : Nat) : String :=
  let ds := if n = 0 then ['0'] else hexDigitsU n n
  "0x" ++ String.mk (List.replicate (8 - ds.length) '0' ++ ds)

/-- The record `secInfo` as built at lines 55-63. -/
structure SecInfo where
  virtualAddress : String
  virtualSize : Nat
  rawSize : Nat
  md5 : String
  sha1 : String
  sha256 : String
  entropy : String
  characteristics : List String
  structureRepr : String
deriving DecidableEq

/-- A value of the `sections` dict: either a per-section record or the
`Total` count inserted at line 69. -/
inductive SecVal
  | info (i : SecInfo)
  | total (n : Nat)
deriving DecidableEq

/-- A `ModuleObject` appended to `moduleResult` at lines 65-67: the
section's raw bytes and the section name as `filename`. -/
structure ChildObject where
  buffer : List Nat
  filename : String
deriving DecidableEq

/-- Python `str.strip('\x00')`: remove NUL bytes from both ends. -/
def stripNul (s : String) : String :=
  String.mk
    (((s.data.dropWhile (fun c => c == Char.ofNat 0)).reverse.dropWhile
      (fun c => c == Char.ofNat 0)).reverse)

/-- The call `pe.get_data(ptr, size)` for section data: the raw byte slice, clamped
to the buffer (the wrapped library never reads past the end; modelled from
the spec's SectionRecord invariant in section 3, the library itself being
outside this repository). -/
def getData (buf : List Nat) (ptr size : Nat) : List Nat := (buf.drop ptr).take size

/-- Lines 55-63: the metadata record of one section. -/
def secInfoOf (s : PESection) : SecInfo :=
  { virtualAddress := fmt08X s.virtAddress
  , virtualSize := s.virtSize
  , rawSize := s.size
  , md5 := s.md5
  , sha1 := s.sha1
  , sha256 := s.sha256
  , entropy := s.entropy
  , characteristics := s.flags
  , structureRepr := s.structureRepr }

/-- Lines 65-67: the child buffer dispatched for one section. -/
def childOf (buf : List Nat) (s : PESection) : ChildObject :=
  { buffer := getData buf s.ptr s.size, filename := stripNul s.nameValue }

/-- Python dict assignment `m[k] = v` on a string-keyed dict: overwrite the
entry holding the key when it exists, append otherwise.  (The keys of an
association list built only through this operation are unique, so replacing
the first occurrence is dict assignment.) -/
def dictInsert : List (String × SecVal) → String → SecVal → List (String × SecVal)
  | [], k, v => [(k, v)]
  | p :: rest, k, v => if p.1 == k then (k, v) :: rest else p :: dictInsert rest k v

/-- Dict lookup `m[k]` (as an option). -/
def dictLookup : List (String × SecVal) → String → Option SecVal
  | [], _ => none
  | p :: rest, k => if p.1 == k then some p.2 else dictLookup rest k

/-- One iteration of the `for section in dump_dict.get('PE Sections', [])`
loop (lines 48-68): conditionally append the child buffer, then store the
record under the stripped name. -/
def sectionStep (buf : List Nat) (objectHash : String)
    (acc : List ChildObject × List (String × SecVal)) (s : PESection) :
    List ChildObject × List (String × SecVal) :=
  let secInfo := secInfoOf s
  let children :=
    if secInfo.md5 == objectHash then acc.1 else acc.1 ++ [childOf buf s]
  (children, dictInsert acc.2 (stripNul s.nameValue) (SecVal.info secInfo))

/-- The whole section loop, from empty accumulators. -/
def sectionLoop (buf : List Nat) (objectHash : String) (secs : List PESection) :
    List ChildObject × List (String × SecVal) :=
  secs.foldl (sectionStep buf objectHash) ([], [])

/-- The `moduleResult` list as of line 70. -/
def sectionChildren (buf : List Nat) (objectHash : String)
    (secs : List PESection) : List ChildObject :=
  (sectionLoop buf objectHash secs).1

/-- The `sections` dict as stored under the `Sections` metadata key: the
per-section records, then `sections['Total'] = pe.FILE_HEADER.NumberOfSections`
(line 69). -/
def sectionsMetadata (buf : List Nat) (objectHash : String)
    (secs : List PESection) (numberOfSections : Nat) : List (String × SecVal) :=
  dictInsert (sectionLoop buf objectHash secs).2 "Total" (SecVal.total numberOfSections)

/-! ### Import directory walk (meta_pe.py lines 89-101)

`dump_dict['Imported symbols']` is a list of descriptor lists.  Each
descriptor dict may carry `DLL`, `Ordinal` and `Name` entries; `imp.get`
yields `None` for an absent key, and the `if imp.get(...)` tests are
truthiness tests: `None`, `0` and `''` all fail them. -/

/-- One imported-symbol descriptor, restricted to the keys the source reads. -/
structure ImpDesc where
  dll : Option String
  ordinal : Option Nat
  symName : Option String
deriving DecidableEq

/-- An element appended to a per-DLL import list: the source appends either
the raw ordinal (an int) or the raw name (a string). -/
inductive ImpEntry
  | ordEntry (n : Nat)
  | nameEntry (s : String)
deriving DecidableEq

/-- Python truthiness of `imp.get(...)` for a string value. -/
def truthyStr : Option String → Bool
  | some s => !(s == "")
  | none => false

/-- Python truthiness of `imp.get(...)` for an integer value. -/
def truthyNat : Option Nat → Bool
  | some n => !(n == 0)
  | none => false

/-- Python `imports.setdefault(dll, [])`: add an empty list under the key when it
is absent, leave the dict unchanged otherwise. -/
def impSetdefault : List (String × List ImpEntry) → String → List (String × List ImpEntry)
  | [], k => [(k, [])]
  | p :: rest, k => if p.1 == k then p :: rest else p :: impSetdefault rest k

/-- Python `imports[dll].append(e)`: append to the list stored under the key (a
no-op when the key is absent; the source always calls `setdefault` first). -/
def impAppend : List (String × List ImpEntry) → String → ImpEntry → List (String × List ImpEntry)
  | [], _, _ => []
  | p :: rest, k, e => if p.1 == k then (p.1, p.2 ++ [e]) :: rest else p :: impAppend rest k e

/-- Lookup in the `imports` dict. -/
def impLookup : List (String × List ImpEntry) → String → Option (List ImpEntry)
  | [], _ => none
  | p :: rest, k => if p.1 == k then some p.2 else impLookup rest k

/-- The body of the inner `for imp in imp_symbol` loop (lines 90-100). -/
def impStep (m : List (String × List ImpEntry)) (d : ImpDesc) :
    List (String × List ImpEntry) :=
  if truthyStr d.dll then
    let dll := d.dll.getD ""
    let m1 := impSetdefault m dll
    let m2 :=
      if truthyNat d.ordinal then impAppend m1 dll (ImpEntry.ordEntry (d.ordinal.getD 0))
      else m1
    if truthyStr d.symName then impAppend m2 dll (ImpEntry.nameEntry (d.symName.getD ""))
    else m2
  else m

/-- The full nested loop over `dump_dict['Imported symbols']` (lines 89-100),
yielding the `imports` dict stored at line 101. -/
def processImports (dss : List (List ImpDesc)) : List (String × List ImpEntry) :=
  dss.foldl (fun m descs => descs.foldl impStep m) []

/-- The entries one descriptor contributes to its DLL's list, in source
order: the ordinal when truthy, then the name when truthy. -/
def descContribution (d : ImpDesc) : List ImpEntry :=
  (if truthyNat d.ordinal then [ImpEntry.ordEntry (d.ordinal.getD 0)] else [])
    ++ (if truthyStr d.symName then [ImpEntry.nameEntry (d.symName.getD "")] else [])

/-- The descriptors naming `dll`, in descriptor order across the whole of
the import directory. -/
def descsFor (dll : String) (dss : List (List ImpDesc)) : List ImpDesc :=
  dss.flatten.filter (fun d => d.dll == some dll)

/-! ### Exception flow of `META_PE._run` (meta_pe.py lines 37-205)

The body is one `try` whose only outer handler is
`except pefile.PEFormatError` (lines 203-204).  Inside it, three field
blocks have their own handlers:

* exports (lines 72-81) and resources (lines 137-170): re-raise
  `QuitScanException`, `GlobalScanTimeoutError` and
  `GlobalModuleTimeoutError`, swallow everything else;
* imphash (lines 83-87): a bare `except:` that swallows everything,
  the cancellation exceptions included.

Every other field is computed with no local handler.  The model runs the
fields in source order; each field's computation either succeeds or raises
the exception given by a behaviour function.  `scanObject.addMetadata`
happens at the end of each field's block, so a field that raises adds no
key; metadata added by earlier fields persists (it lives on `scanObject`)
even when an exception escapes `_run`. -/

/-- The exceptions distinguished by the source's handlers. -/
inductive Exc
  | formatError
  | quitScan
  | globalScanTimeout
  | globalModuleTimeout
  | otherError
deriving DecidableEq, Fintype

/-- The three cancellation exceptions re-raised at lines 76-79 and 165-168. -/
def isCancel : Exc → Bool
  | .quitScan => true
  | .globalScanTimeout => true
  | .globalModuleTimeout => true
  | _ => false

/-- The metadata fields `_run` populates, one per `addMetadata` site. -/
inductive MKey
  | sections
  | exports
  | imphash
  | imports
  | imageChars
  | date
  | timestamp
  | machineType
  | imageMagic
  | dllChars
  | subsystem
  | resources
  | stackReserve
  | stackCommit
  | heapReserve
  | heapCommit
  | entryPoint
  | imageBase
  | rsds
  | richHeader
deriving DecidableEq, Fintype

/-- The local handler a field's block runs under. -/
inductive FieldGuard
  | plain
  | reraiseCancel
  | swallowAll
deriving DecidableEq

/-- Which handler guards each field in the source. -/
def guardOf : MKey → FieldGuard
  | .exports => .reraiseCancel
  | .resources => .reraiseCancel
  | .imphash => .swallowAll
  | _ => .plain

/-- The fields in source order (lines 48-201). -/
def stepOrder : List MKey :=
  [.sections, .exports, .imphash, .imports, .imageChars, .date, .timestamp,
   .machineType, .imageMagic, .dllChars, .subsystem, .resources,
   .stackReserve, .stackCommit, .heapReserve, .heapCommit, .entryPoint,
   .imageBase, .rsds, .richHeader]

/-- A run's behaviour: whether `pefile.PE(...)`/`dump_dict()` (lines 45-46)
raises, and whether each field's computation raises. -/
structure RunBehavior where
  construct : Option Exc
  fieldExc : MKey → Option Exc

/-- Run the field blocks in order.  Returns the metadata keys added and the
exception escaping the outer `try` body, if any. -/
def runSteps (beh : MKey → Option Exc) : List MKey → List MKey × Option Exc
  | [] => ([], none)
  | k :: rest =>
    match beh k with
    | none =>
      let r := runSteps beh rest
      (k :: r.1, r.2)
    | some e =>
      match guardOf k with
      | .plain => ([], some e)
      | .swallowAll => runSteps beh rest
      | .reraiseCancel => if isCancel e then ([], some e) else runSteps beh rest

/-- The outer `except pefile.PEFormatError` (lines 203-204): a format error
is swallowed (and `moduleResult` is returned); everything else escapes. -/
def outerCatch : Option Exc → Option Exc
  | some Exc.formatError => none
  | x => x

/-- The observable outcome of `_run`: metadata keys added (in order), the
exception escaping `_run` (none means the function returned `moduleResult`),
and whether the section loop ran at all (`moduleResult` stays empty when it
did not, since lines 65-67 are its only append site). -/
structure RunOutcome where
  keys : List MKey
  escape : Option Exc
  sectionLoopRan : Bool
deriving DecidableEq

/-- The method `META_PE._run` as a function of a run behaviour. -/
def runModel (b : RunBehavior) : RunOutcome :=
  match b.construct with
  | some e => { keys := [], escape := outerCatch (some e), sectionLoopRan := false }
  | none =>
    let r := runSteps b.fieldExc stepOrder
    { keys := r.1, escape := outerCatch r.2, sectionLoopRan := true }

/-! ### Helper lemmas -/

lemma secInfoOf_md5 (s : PESection) : (secInfoOf s).md5 = s.md5 := rfl

lemma getLast?_exists_of_ne_nil {α : Type} :
    ∀ l : List α, l ≠ [] → ∃ a, l.getLast? = some a ∧ a ∈ l
  | [], h => absurd rfl h
  | [a], _ => ⟨a, rfl, by simp⟩
  | a :: b :: t, _ => by
    obtain ⟨c, hc, hm⟩ := getLast?_exists_of_ne_nil (b :: t) (by simp)
    exact ⟨c, by rw [List.getLast?_cons_cons]; exact hc, by simp [hm]⟩

/-- Field blocks whose computations either succeed or fail only inside the
locally guarded blocks (and not with a cancellation exception) run to the
end: no exception leaves the loop, and every non-failing field's key is
added. -/
lemma runSteps_isolated (beh : MKey → Option Exc) :
    ∀ steps : List MKey,
      (∀ k ∈ steps, guardOf k = FieldGuard.plain → beh k = none) →
      (∀ k ∈ steps, ∀ e, beh k = some e → isCancel e = false) →
      (runSteps beh steps).2 = none ∧
        ∀ k ∈ steps, beh k = none → k ∈ (runSteps beh steps).1 := by
  intro steps
  induction steps with
  | nil => intro _ _; exact ⟨rfl, by simp⟩
  | cons k rest ih =>
    intro hplain hnc
    have ihr := ih (fun x hx => hplain x (List.mem_cons_of_mem _ hx))
      (fun x hx => hnc x (List.mem_cons_of_mem _ hx))
    cases hbk : beh k with
    | none =>
      refine ⟨by simp only [runSteps, hbk]; exact ihr.1, ?_⟩
      intro k0 hk0 hb0
      rcases List.mem_cons.mp hk0 with h | h
      · subst h; simp only [runSteps, hbk]; exact List.mem_cons_self _ _
      · simp only [runSteps, hbk]
        exact List.mem_cons_of_mem _ (ihr.2 k0 h hb0)
    | some e =>
      have hnotplain : guardOf k ≠ FieldGuard.plain := by
        intro hg
        have := hplain k (List.mem_cons_self _ _) hg
        rw [hbk] at this; exact Option.noConfusion this
      have hcfalse : isCancel e = false := hnc k (List.mem_cons_self _ _) e hbk
      cases hg : guardOf k with
      | plain => exact absurd hg hnotplain
      | swallowAll =>
        refine ⟨by simp only [runSteps, hbk, hg]; exact ihr.1, ?_⟩
        intro k0 hk0 hb0
        rcases List.mem_cons.mp hk0 with h | h
        · subst h; rw [hbk] at hb0; exact Option.noConfusion hb0
        · simp only [runSteps, hbk, hg]; exact ihr.2 k0 h hb0
      | reraiseCancel =>
        refine ⟨by simp only [runSteps, hbk, hg, hcfalse]; simp; exact ihr.1, ?_⟩
        intro k0 hk0 hb0
        rcases List.mem_cons.mp hk0 with h | h
        · subst h; rw [hbk] at hb0; exact Option.noConfusion hb0
        · simp only [runSteps, hbk, hg, hcfalse]; simp; exact ihr.2 k0 h hb0

/-! ### Claim C1 -/

/-- Claim C1: when `pefile.PE(data=...)` (or `dump_dict()`) raises a format
error, `_run` adds no metadata key, never reaches the section loop (so the
returned `moduleResult` child-buffer list is empty), and no exception
escapes to the caller. -/
theorem meta_pe_formatError_yields_empty (b : RunBehavior)
    (h : b.construct = some Exc.formatError) :
    (runModel b).keys = [] ∧ (runModel b).sectionLoopRan = false ∧
      (runModel b).escape = none := by
  simp [runModel, h, outerCatch]

/-- A behaviour whose construction step raises `pefile.PEFormatError`. -/
def formatErrorBehavior : RunBehavior :=
  { construct := some Exc.formatError, fieldExc := fun _ => none }

/-- Witness for C1 at a concrete behaviour. -/
theorem meta_pe_formatError_yields_empty_witness :
    (runModel formatErrorBehavior).keys = [] ∧
      (runModel formatErrorBehavior).sectionLoopRan = false ∧
      (runModel formatErrorBehavior).escape = none :=
  meta_pe_formatError_yields_empty formatErrorBehavior rfl

/-! ### Claim C2 -/

/-- A behaviour where only the `Date` computation (line 107,
`datetime.fromtimestamp`) raises an ordinary exception. -/
def dateFailBehavior : RunBehavior :=
  { construct := none
  , fieldExc := fun k => match k with
      | MKey.date => some Exc.otherError
      | _ => none }

/-- Counterexample to claim C2 as stated: a failure while computing the
`Date` field alone prevents population of `Machine Type` (and of every later
field), because the date block has no local handler; the exception even
escapes `_run`. -/
theorem field_isolation_cex :
    (runModel dateFailBehavior).keys =
      [MKey.sections, MKey.exports, MKey.imphash, MKey.imports, MKey.imageChars]
  ∧ dateFailBehavior.fieldExc MKey.machineType = none
  ∧ MKey.machineType ∉ (runModel dateFailBehavior).keys
  ∧ (runModel dateFailBehavior).escape = some Exc.otherError := by decide

/-- Claim C2 amended: only the exports, imphash and resources blocks are
locally isolated.  When every unguarded field's computation succeeds and any
failures in the guarded fields are not cancellation exceptions, no exception
escapes and every field whose own computation succeeds is populated. -/
theorem guarded_fields_isolated (b : RunBehavior)
    (hc : b.construct = none)
    (hplain : ∀ k, guardOf k = FieldGuard.plain → b.fieldExc k = none)
    (hnocancel : ∀ k e, b.fieldExc k = some e → isCancel e = false) :
    (runModel b).escape = none ∧
      ∀ k ∈ stepOrder, b.fieldExc k = none → k ∈ (runModel b).keys := by
  have h := runSteps_isolated b.fieldExc stepOrder
    (fun k _ => hplain k) (fun k _ => hnocancel k)
  constructor
  · simp only [runModel, hc]
    rw [h.1]
    rfl
  · intro k hk hb
    simp only [runModel, hc]
    exact h.2 k hk hb

/-- A behaviour where the guarded exports and imphash blocks fail with
ordinary exceptions and the guarded resources block fails with a
`pefile.PEFormatError`; every unguarded field succeeds. -/
def isolatedFailBehavior : RunBehavior :=
  { construct := none
  , fieldExc := fun k => match k with
      | MKey.exports => some Exc.otherError
      | MKey.imphash => some Exc.otherError
      | MKey.resources => some Exc.formatError
      | _ => none }

/-- Witness for the amended C2 at a concrete behaviour. -/
theorem guarded_fields_isolated_witness :
    (runModel isolatedFailBehavior).escape = none ∧
      MKey.machineType ∈ (runModel isolatedFailBehavior).keys := by
  have h := guarded_fields_isolated isolatedFailBehavior rfl (by decide) (by decide)
  exact ⟨h.1, h.2 MKey.machineType (by decide) rfl⟩

/-! ### Claim C5 -/

/-- Claim C5 (code bug): because the local variable `imageMagic` is
initialised to `''` at line 42 and never reassigned, the stored
`Image Magic` value is `Unknown` for every optional-header magic, including
`0x10b`/`0x20b`/`0x107`; the lookup the claim (and the spec) prescribes
would resolve those to `32_BIT`/`64_BIT`/`ROM_IMAGE`. -/
theorem imageMagic_always_unknown :
    (∀ m : Nat, imageMagicMetadata m = "Unknown")
  ∧ imageMagicMetadata 0x10b = "Unknown"
  ∧ imageMagicSpec 0x10b = "32_BIT"
  ∧ imageMagicSpec 0x20b = "64_BIT"
  ∧ imageMagicSpec 0x107 = "ROM_IMAGE"
  ∧ imageMagicSpec 0x1234 = "Unknown" :=
  ⟨fun _ => rfl, rfl, by decide, by decide, by decide, by decide⟩

/-! ### Claim C8 -/

/-- A behaviour where `pe.get_imphash()` (line 85) raises
`QuitScanException`. -/
def imphashCancelBehavior : RunBehavior :=
  { construct := none
  , fieldExc := fun k => match k with
      | MKey.imphash => some Exc.quitScan
      | _ => none }

/-- A behaviour where the exports block raises `QuitScanException`. -/
def exportsCancelBehavior : RunBehavior :=
  { construct := none
  , fieldExc := fun k => match k with
      | MKey.exports => some Exc.quitScan
      | _ => none }

/-- Claim C8 (code bug): a cancellation exception raised while computing the
imphash is swallowed by the bare `except:` at line 86 — extraction continues
through the last field and nothing escapes — although the exports and
resources handlers (lines 76-79, 165-168) do re-raise cancellation, as the
claim demands; raised in the exports block, the same exception propagates
immediately and aborts all remaining fields. -/
theorem imphash_swallows_cancellation :
    (runModel imphashCancelBehavior).escape = none
  ∧ MKey.richHeader ∈ (runModel imphashCancelBehavior).keys
  ∧ MKey.imphash ∉ (runModel imphashCancelBehavior).keys
  ∧ (runModel exportsCancelBehavior).escape = some Exc.quitScan
  ∧ (runModel exportsCancelBehavior).keys = [MKey.sections] := by decide

/-! ### Claim C4 -/

/-- The loop of `parseRich` over an even-length value list emits exactly one
triple per pair of words, decoded by `>> 16` / `& 0xffff` / second word. -/
lemma richPairs_spec :
    ∀ vs : List Nat, vs.length % 2 = 0 →
      ∃ es, richPairs vs = some es ∧ es.length = vs.length / 2 ∧
        ∀ i, i < es.length →
          es.getD i ⟨0, 0, 0⟩ =
            ⟨vs.getD (2 * i) 0 / 65536, vs.getD (2 * i) 0 % 65536,
              vs.getD (2 * i + 1) 0⟩
  | [], _ => ⟨[], rfl, rfl, fun i hi => absurd hi (by simp)⟩
  | [v], h => absurd h (by simp)
  | v :: c :: rest, h => by
    obtain ⟨es, h1, h2, h3⟩ :=
      richPairs_spec rest (by simp only [List.length_cons] at h ⊢; omega)
    refine ⟨⟨v / 65536, v % 65536, c⟩ :: es, ?_, ?_, ?_⟩
    · simp [richPairs, h1]
    · simp only [List.length_cons, h2]; omega
    · intro i hi
      cases i with
      | zero => simp
      | succ j =>
        have hj : j < es.length := by simpa using hi
        have e1 : (v :: c :: rest).getD (2 * (j + 1)) 0 = rest.getD (2 * j) 0 := by
          rw [show 2 * (j + 1) = 2 * j + 1 + 1 by ring]
          simp [List.getD_cons_succ]
        have e2 : (v :: c :: rest).getD (2 * (j + 1) + 1) 0 = rest.getD (2 * j + 1) 0 := by
          rw [show 2 * (j + 1) + 1 = 2 * j + 1 + 1 + 1 by ring]
          simp [List.getD_cons_succ]
        rw [List.getD_cons_succ, e1, e2]
        exact h3 j hj

/-- A concrete `pe.RICH_HEADER` with two pairs of decoded words:
`0x00010002, 5, 0x00030004, 7`, checksum `9`. -/
def richSample : RichHeaderData := { values := [65538, 5, 196612, 7], checksum := 9 }

/-- Counterexample to claim C4 as stated: with `N = 2` pairs of decoded
words, `parseRich` emits 2 triples, not `N - 1 = 1`; no pair is skipped as a
header marker (the first pair is decoded as an ordinary `(1, 2, 5)` entry). -/
theorem parseRich_claim_cex :
    parseRich (some richSample) =
      some (some { entries := [⟨1, 2, 5⟩, ⟨3, 4, 7⟩], checksum := 9 })
  ∧ richSample.values.length = 4
  ∧ ¬ ((parseRich (some richSample)).map (Option.map (fun r => r.entries.length))
        = some (some (richSample.values.length / 2 - 1))) := by decide

/-- Claim C4 amended: for a Rich header whose decoded value list (as the
wrapped library supplies it, markers already excluded) holds `N` pairs of
32-bit words, `parseRich` yields exactly `N` `(tool_id, version, count)`
triples — `tool_id` the high 16 bits and `version` the low 16 bits of the
first word of each pair, `count` the second word — plus the original
checksum; absence of a Rich header yields an empty result. -/
theorem parseRich_amended :
    (∀ rh : RichHeaderData, rh.values.length % 2 = 0 →
      ∃ r, parseRich (some rh) = some (some r)
        ∧ r.entries.length = rh.values.length / 2
        ∧ (∀ i, i < r.entries.length →
            r.entries.getD i ⟨0, 0, 0⟩ =
              ⟨rh.values.getD (2 * i) 0 / 65536, rh.values.getD (2 * i) 0 % 65536,
                rh.values.getD (2 * i + 1) 0⟩)
        ∧ r.checksum = rh.checksum)
  ∧ parseRich none = some none := by
  constructor
  · intro rh h
    obtain ⟨es, h1, h2, h3⟩ := richPairs_spec rh.values h
    exact ⟨{ entries := es, checksum := rh.checksum },
      by simp [parseRich, h1], h2, h3, rfl⟩
  · rfl

/-- Witness for the amended C4 at the concrete header `richSample`. -/
theorem parseRich_amended_witness :
    ∃ r, parseRich (some richSample) = some (some r) ∧
      r.entries.length = richSample.values.length / 2 := by
  obtain ⟨r, h1, h2, _, _⟩ := parseRich_amended.1 richSample (by decide)
  exact ⟨r, h1, h2⟩

/-! ### Claims C6 and C10 -/

/-- The child-buffer output of the section loop, from any accumulator:
exactly the `childOf` images of the sections whose MD5 differs from the
object hash, in section-table order. -/
lemma sectionLoop_children_aux (buf : List Nat) (objectHash : String) :
    ∀ (secs : List PESection) (acc : List ChildObject × List (String × SecVal)),
      (secs.foldl (sectionStep buf objectHash) acc).1 =
        acc.1 ++ (secs.filter (fun s => !(s.md5 == objectHash))).map (childOf buf) := by
  intro secs
  induction secs with
  | nil => intro acc; simp
  | cons s rest ih =>
    intro acc
    rw [List.foldl_cons, ih]
    cases h : (s.md5 == objectHash) with
    | true => simp [sectionStep, secInfoOf_md5, h, List.filter_cons]
    | false => simp [sectionStep, secInfoOf_md5, h, List.filter_cons]


lemma dictLookup_insert_self :
    ∀ (m : List (String × SecVal)) (k : String) (v : SecVal),
      dictLookup (dictInsert m k v) k = some v := by
  intro m k v
  induction m with
  | nil => simp [dictInsert, dictLookup]
  | cons p rest ih =>
    cases hp : (p.1 == k) with
    | true => simp [dictInsert, dictLookup, hp]
    | false => simp [dictInsert, dictLookup, hp, ih]

lemma dictLookup_insert_other :
    ∀ (m : List (String × SecVal)) (k k' : String) (v : SecVal), k' ≠ k →
      dictLookup (dictInsert m k v) k' = dictLookup m k' := by
  intro m k k' v hk
  have hkk : (k == k') = false := beq_eq_false_iff_ne.mpr (fun h => hk h.symm)
  induction m with
  | nil => simp [dictInsert, dictLookup, hkk]
  | cons p rest ih =>
    cases hp : (p.1 == k) with
    | true =>
      have hp' : (p.1 == k') = false := by rw [eq_of_beq hp]; exact hkk
      simp [dictInsert, dictLookup, hp, hp', hkk]
    | false => simp [dictInsert, dictLookup, hp, ih]

/-- Once the dict stores `v` under `k` and every remaining section whose
stripped name is `k` stores that same value, the loop leaves `k` at `v`. -/
lemma sectionLoop_lookup_aux (buf : List Nat) (objectHash : String) :
    ∀ (secs : List PESection) (acc : List ChildObject × List (String × SecVal))
      (k : String) (v : SecVal),
      dictLookup acc.2 k = some v →
      (∀ t ∈ secs, stripNul t.nameValue = k → SecVal.info (secInfoOf t) = v) →
      dictLookup (secs.foldl (sectionStep buf objectHash) acc).2 k = some v := by
  intro secs
  induction secs with
  | nil => intro acc k v hacc _; exact hacc
  | cons t rest ih =>
    intro acc k v hacc hall
    rw [List.foldl_cons]
    by_cases ht : stripNul t.nameValue = k
    · refine ih _ k v ?_ (fun u hu => hall u (List.mem_cons_of_mem _ hu))
      show dictLookup (dictInsert acc.2 (stripNul t.nameValue) (SecVal.info (secInfoOf t))) k
        = some v
      rw [ht, dictLookup_insert_self]
      exact congrArg some (hall t (List.mem_cons_self _ _) ht)
    · refine ih _ k v ?_ (fun u hu => hall u (List.mem_cons_of_mem _ hu))
      show dictLookup (dictInsert acc.2 (stripNul t.nameValue) (SecVal.info (secInfoOf t))) k
        = some v
      rw [dictLookup_insert_other _ _ _ _ (fun h => ht h.symm)]
      exact hacc

/-- The loop stores each section's record under its stripped name, provided
every section sharing that stripped name carries the same record. -/
lemma sectionLoop_lookup (buf : List Nat) (objectHash : String) :
    ∀ (secs : List PESection) (acc : List ChildObject × List (String × SecVal))
      (s : PESection), s ∈ secs →
      (∀ t ∈ secs, stripNul t.nameValue = stripNul s.nameValue →
        secInfoOf t = secInfoOf s) →
      dictLookup (secs.foldl (sectionStep buf objectHash) acc).2 (stripNul s.nameValue)
        = some (SecVal.info (secInfoOf s)) := by
  intro secs
  induction secs with
  | nil => intro acc s hs; exact absurd hs (List.not_mem_nil _)
  | cons t rest ih =>
    intro acc s hs hall
    by_cases ht : stripNul t.nameValue = stripNul s.nameValue
    · rw [List.foldl_cons]
      refine sectionLoop_lookup_aux buf objectHash rest _ _ _ ?_ ?_
      · show dictLookup (dictInsert acc.2 (stripNul t.nameValue) (SecVal.info (secInfoOf t)))
          (stripNul s.nameValue) = some (SecVal.info (secInfoOf s))
        rw [ht, dictLookup_insert_self]
        exact congrArg (fun i => some (SecVal.info i)) (hall t (List.mem_cons_self _ _) ht)
      · intro u hu hun
        exact congrArg SecVal.info (hall u (List.mem_cons_of_mem _ hu) hun)
    · have hsr : s ∈ rest := by
        rcases List.mem_cons.mp hs with h | h
        · exact absurd (congrArg (fun x => stripNul x.nameValue) h.symm) ht
        · exact h
      rw [List.foldl_cons]
      exact ih _ s hsr (fun u hu => hall u (List.mem_cons_of_mem _ hu))

/-! ### Claim C6 -/

/-- Claim C6: the child buffers `_run` collects are exactly the sections
whose per-section MD5 differs from the whole object's content hash, in
section-table order; a section whose MD5 equals the object hash is never
emitted. -/
theorem section_children_filter (buf : List Nat) (objectHash : String)
    (secs : List PESection) :
    sectionChildren buf objectHash secs =
      (secs.filter (fun s => !(s.md5 == objectHash))).map (childOf buf) := by
  have h := sectionLoop_children_aux buf objectHash secs ([], [])
  simpa [sectionChildren, sectionLoop] using h

/-! ### Claim C10 -/

/-- A section whose 8-byte name field strips to the string `Total`. -/
def totalNamedSection : PESection :=
  { nameValue := "Total", ptr := 0, virtAddress := 0, virtSize := 1, size := 1
  , md5 := "h", sha1 := "", sha256 := "", entropy := "", flags := []
  , structureRepr := "" }

/-- Counterexample to claim C10 as stated: for a section literally named
`Total` (a legal 8-byte section name) whose MD5 equals the object hash, the
`sections['Total'] = pe.FILE_HEADER.NumberOfSections` assignment at line 69
overwrites the record, so the record is *not* in the final `Sections` map. -/
theorem sections_total_collision_cex :
    totalNamedSection.md5 = "h"
  ∧ dictLookup (sectionsMetadata [0] "h" [totalNamedSection] 1) "Total"
      = some (SecVal.total 1)
  ∧ SecVal.info (secInfoOf totalNamedSection) ∉
      (sectionsMetadata [0] "h" [totalNamedSection] 1).map Prod.snd := by decide

/-- Claim C10 amended: a section whose MD5 equals the whole-file content
hash is excluded only from the child-buffer list; its record is still stored
in the `Sections` map under its stripped name — and survives to the final
map whenever no other section shares that stripped name and the name is not
`Total` (which the count assignment overwrites) — while the `Total` entry is
the file header's section count regardless of the exclusion. -/
theorem section_record_kept_amended (buf : List Nat) (objectHash : String)
    (secs : List PESection) (n : Nat) (s : PESection)
    (hmem : s ∈ secs)
    (huniq : ∀ t ∈ secs, stripNul t.nameValue = stripNul s.nameValue → t = s)
    (hname : stripNul s.nameValue ≠ "Total")
    (hmd5 : s.md5 = objectHash) :
    dictLookup (sectionsMetadata buf objectHash secs n) (stripNul s.nameValue)
        = some (SecVal.info (secInfoOf s))
  ∧ dictLookup (sectionsMetadata buf objectHash secs n) "Total" = some (SecVal.total n)
  ∧ childOf buf s ∉ sectionChildren buf objectHash secs := by
  refine ⟨?_, ?_, ?_⟩
  · rw [sectionsMetadata, dictLookup_insert_other _ _ _ _ hname]
    exact sectionLoop_lookup buf objectHash secs ([], []) s hmem
      (fun t ht htn => congrArg secInfoOf (huniq t ht htn))
  · rw [sectionsMetadata, dictLookup_insert_self]
  · intro hmemc
    have hch := sectionLoop_children_aux buf objectHash secs ([], [])
    rw [show sectionChildren buf objectHash secs
        = (sectionLoop buf objectHash secs).1 from rfl, sectionLoop, hch] at hmemc
    simp only [List.nil_append, List.mem_map] at hmemc
    obtain ⟨t, htf, hteq⟩ := hmemc
    have htmem : t ∈ secs := List.mem_of_mem_filter htf
    have htmd5 : (t.md5 == objectHash) = false := by
      have := List.of_mem_filter htf
      simpa using this
    have hnames : stripNul t.nameValue = stripNul s.nameValue := by
      have : (childOf buf t).filename = (childOf buf s).filename := by rw [hteq]
      simpa [childOf] using this
    have := huniq t htmem hnames
    rw [this] at htmd5
    rw [hmd5] at htmd5
    simp at htmd5

/-- A section named `A` whose MD5 equals the object hash `h`. -/
def selfHashSection : PESection :=
  { nameValue := "A", ptr := 0, virtAddress := 4096, virtSize := 1, size := 1
  , md5 := "h", sha1 := "", sha256 := "", entropy := "", flags := []
  , structureRepr := "" }

/-- Witness for the amended C10 at a concrete one-section table. -/
theorem section_record_kept_amended_witness :
    dictLookup (sectionsMetadata [0] "h" [selfHashSection] 1)
        (stripNul selfHashSection.nameValue)
      = some (SecVal.info (secInfoOf selfHashSection))
  ∧ dictLookup (sectionsMetadata [0] "h" [selfHashSection] 1) "Total"
      = some (SecVal.total 1)
  ∧ childOf [0] selfHashSection ∉ sectionChildren [0] "h" [selfHashSection] :=
  section_record_kept_amended [0] "h" [selfHashSection] 1 selfHashSection
    (by decide) (by decide) (by decide) rfl

/-! ### Claims C7 and C9 -/

lemma impLookup_setdefault_self :
    ∀ (m : List (String × List ImpEntry)) (k : String),
      impLookup (impSetdefault m k) k = some ((impLookup m k).getD []) := by
  intro m k
  induction m with
  | nil => simp [impSetdefault, impLookup]
  | cons p rest ih =>
    cases hp : (p.1 == k) with
    | true => simp [impSetdefault, impLookup, hp]
    | false => simp [impSetdefault, impLookup, hp, ih]

lemma impLookup_setdefault_other {k k' : String} (hk : k' ≠ k) :
    ∀ m : List (String × List ImpEntry),
      impLookup (impSetdefault m k) k' = impLookup m k' := by
  have hkk : (k == k') = false := beq_eq_false_iff_ne.mpr (fun h => hk h.symm)
  intro m
  induction m with
  | nil => simp [impSetdefault, impLookup, hkk]
  | cons p rest ih =>
    cases hp : (p.1 == k) with
    | true => simp [impSetdefault, impLookup, hp]
    | false => simp [impSetdefault, impLookup, hp, ih]

lemma impLookup_append_other {k k' : String} (hk : k' ≠ k) :
    ∀ (m : List (String × List ImpEntry)) (e : ImpEntry),
      impLookup (impAppend m k e) k' = impLookup m k' := by
  intro m e
  induction m with
  | nil => simp [impAppend, impLookup]
  | cons p rest ih =>
    cases hp : (p.1 == k) with
    | true =>
      have hp' : (p.1 == k') = false := by
        rw [eq_of_beq hp]
        exact beq_eq_false_iff_ne.mpr (fun h => hk h.symm)
      simp [impAppend, impLookup, hp, hp']
    | false => simp [impAppend, impLookup, hp, ih]

lemma impLookup_append_self :
    ∀ (m : List (String × List ImpEntry)) (k : String) (e : ImpEntry),
      impLookup (impAppend m k e) k = (impLookup m k).map (fun l => l ++ [e]) := by
  intro m k e
  induction m with
  | nil => simp [impAppend, impLookup]
  | cons p rest ih =>
    cases hp : (p.1 == k) with
    | true => simp [impAppend, impLookup, hp]
    | false => simp [impAppend, impLookup, hp, ih]

/-- Processing a descriptor that names the DLL `k` appends exactly its
contribution (ordinal first, then name, each only when truthy) to `k`'s
list, creating the entry when needed. -/
lemma impStep_lookup_match (m : List (String × List ImpEntry)) (d : ImpDesc)
    (k : String) (hk : k ≠ "") (hd : d.dll = some k) :
    impLookup (impStep m d) k = some ((impLookup m k).getD [] ++ descContribution d) := by
  have htr : truthyStr (some k) = true := by simpa [truthyStr] using hk
  simp only [impStep, hd, htr, if_true, Option.getD_some]
  cases ho : truthyNat d.ordinal <;> cases hn : truthyStr d.symName <;>
    simp [descContribution, ho, hn, impLookup_append_self, impLookup_setdefault_self,
      List.append_assoc]

/-- Processing a descriptor that does not name the DLL `k` leaves `k`'s
entry unchanged. -/
lemma impStep_lookup_other (m : List (String × List ImpEntry)) (d : ImpDesc)
    (k : String) (hd : d.dll ≠ some k) :
    impLookup (impStep m d) k = impLookup m k := by
  cases hdll : d.dll with
  | none => simp [impStep, truthyStr, hdll]
  | some dll =>
    have hne : k ≠ dll := by
      intro h
      exact hd (by rw [hdll, h])
    by_cases hde : dll = ""
    · simp [impStep, truthyStr, hdll, hde]
    · have htr : truthyStr (some dll) = true := by
        simp [truthyStr]
        exact hde
      simp only [impStep, hdll, htr, if_true, Option.getD_some]
      cases ho : truthyNat d.ordinal <;> cases hn : truthyStr d.symName <;>
        simp [ho, hn, impLookup_append_other hne, impLookup_setdefault_other hne]

/-- Folding the descriptor loop over a flat descriptor list: the per-DLL
entry list grows by the in-order contributions of the descriptors naming
that DLL. -/
lemma impFold_lookup (k : String) (hk : k ≠ "") :
    ∀ (ds : List ImpDesc) (m : List (String × List ImpEntry)),
      impLookup (ds.foldl impStep m) k =
        if ds.filter (fun d => d.dll == some k) = [] then impLookup m k
        else some ((impLookup m k).getD []
          ++ ((ds.filter (fun d => d.dll == some k)).map descContribution).flatten) := by
  intro ds
  induction ds with
  | nil => intro m; simp
  | cons d rest ih =>
    intro m
    rw [List.foldl_cons, ih]
    by_cases hd : d.dll = some k
    · have hb : (d.dll == some k) = true := by simp [hd]
      rw [impStep_lookup_match m d k hk hd]
      by_cases hrest : rest.filter (fun d => d.dll == some k) = []
      · simp [List.filter_cons, hb, hrest]
      · simp [List.filter_cons, hb, hrest, List.append_assoc]
    · have hb : (d.dll == some k) = false := by simp [hd]
      rw [impStep_lookup_other m d k hd]
      simp [List.filter_cons, hb]

/-- The nested per-DLL-descriptor-list loop equals the loop over the
flattened descriptor list. -/
lemma processImports_eq_flat (dss : List (List ImpDesc)) :
    processImports dss = dss.flatten.foldl impStep [] := by
  rw [processImports]
  generalize ([] : List (String × List ImpEntry)) = m
  induction dss generalizing m with
  | nil => simp
  | cons l rest ih => simp [List.foldl_append, ih]

/-- A descriptor with DLL `A.DLL` supplying only the ordinal `0`. -/
def ordZeroDesc : ImpDesc := { dll := some "A.DLL", ordinal := some 0, symName := none }

/-- Counterexample to claim C7 as stated: a descriptor supplying only the
ordinal `0` contributes no entry at all (line 95 tests truthiness, and `0`
is falsy), so the DLL's list stays empty instead of containing the ordinal. -/
theorem imports_ordinal_zero_cex :
    processImports [[ordZeroDesc]] = [("A.DLL", [])]
  ∧ ¬ (impLookup (processImports [[ordZeroDesc]]) "A.DLL" = some [ImpEntry.ordEntry 0]) := by
  decide

/-- Claim C7 amended: for every DLL name `k` (nonempty, as required for the
`if imp.get('DLL')` test to pass), the per-DLL entry list is exactly the
concatenation, in descriptor order, of each descriptor's contribution; a
descriptor supplying only a *nonzero* ordinal contributes exactly that
ordinal (no name) and one supplying only a *nonempty* name contributes
exactly that name (no ordinal). -/
theorem imports_amended (k : String) (dss : List (List ImpDesc)) (hk : k ≠ "") :
    (impLookup (processImports dss) k =
      if descsFor k dss = [] then none
      else some (((descsFor k dss).map descContribution).flatten))
  ∧ (∀ n : Nat, n ≠ 0 →
      descContribution { dll := some k, ordinal := some n, symName := none }
        = [ImpEntry.ordEntry n])
  ∧ (∀ s : String, s ≠ "" →
      descContribution { dll := some k, ordinal := none, symName := some s }
        = [ImpEntry.nameEntry s]) := by
  refine ⟨?_, ?_, ?_⟩
  · rw [processImports_eq_flat, impFold_lookup k hk]
    rfl
  · intro n hn
    have : (n == 0) = false := beq_eq_false_iff_ne.mpr hn
    simp [descContribution, truthyNat, truthyStr, this]
  · intro s hs
    have : (s == "") = false := beq_eq_false_iff_ne.mpr hs
    simp [descContribution, truthyNat, truthyStr, this]

/-- A two-descriptor import directory for `KERNEL32.DLL`: a name-only
descriptor followed by an ordinal-only descriptor. -/
def kernelDescs : List (List ImpDesc) :=
  [[ { dll := some "KERNEL32.DLL", ordinal := none, symName := some "CreateFileA" }
   , { dll := some "KERNEL32.DLL", ordinal := some 7, symName := none } ]]

/-- Witness for the amended C7 at a concrete import directory. -/
theorem imports_amended_witness :
    impLookup (processImports kernelDescs) "KERNEL32.DLL"
      = some [ImpEntry.nameEntry "CreateFileA", ImpEntry.ordEntry 7] := by
  have h := (imports_amended "KERNEL32.DLL" kernelDescs (by decide)).1
  rw [h]
  decide

/-! ### Claim C9 -/

/-- Claim C9: membership in a DLL's import list is decided by truthiness,
not presence — a descriptor whose ordinal is `0` or whose name is `''`
contributes nothing for that component; an ordinal-`0`, empty-name
descriptor only ensures the DLL key exists, with an empty entry list. -/
theorem falsy_import_components_dropped
    (m : List (String × List ImpEntry)) (dll : String) (n : Nat) (hdll : dll ≠ "") :
    impStep m { dll := some dll, ordinal := some 0, symName := none }
      = impSetdefault m dll
  ∧ impStep m { dll := some dll, ordinal := some n, symName := some "" }
      = impStep m { dll := some dll, ordinal := some n, symName := none }
  ∧ impLookup (processImports [[{ dll := some dll, ordinal := some 0, symName := some "" }]]) dll
      = some [] := by
  have htr : truthyStr (some dll) = true := by simpa [truthyStr] using hdll
  refine ⟨?_, ?_, ?_⟩
  · simp [impStep, htr, truthyNat, truthyStr, hdll]
  · simp [impStep, htr, truthyNat, truthyStr, hdll]
  · show impLookup ([[{ dll := some dll, ordinal := some 0, symName := some "" }]].foldl
      (fun m descs => descs.foldl impStep m) []) dll = some []
    simp only [List.foldl_cons, List.foldl_nil]
    rw [show impStep [] { dll := some dll, ordinal := some 0, symName := some "" }
        = impSetdefault [] dll by simp [impStep, htr, truthyNat, truthyStr, hdll]]
    simp [impSetdefault, impLookup]

/-- Witness for C9 at a concrete DLL name and accumulator. -/
theorem falsy_import_components_dropped_witness :
    impStep [] { dll := some "X.DLL", ordinal := some 0, symName := none }
      = impSetdefault [] "X.DLL"
  ∧ impStep [] { dll := some "X.DLL", ordinal := some 3, symName := some "" }
      = impStep [] { dll := some "X.DLL", ordinal := some 3, symName := none }
  ∧ impLookup (processImports
      [[{ dll := some "X.DLL", ordinal := some 0, symName := some "" }]]) "X.DLL"
      = some [] :=
  falsy_import_components_dropped [] "X.DLL" 3 (by decide)

/-! ### Claim C3 -/

lemma validGap_props {buf : List Nat} {s k : Nat} (h : validGap buf s k = true) :
    24 ≤ k ∧ k ≤ 1024 ∧ s + 8 + k ≤ buf.length := by
  simp only [validGap, Bool.and_eq_true, decide_eq_true_eq] at h
  exact ⟨h.1.1.1.1, h.1.1.1.2, h.1.1.2⟩

lemma bestGapFrom_isSome (buf : List Nat) (s : Nat) :
    ∀ hi k : Nat, k ≤ hi → validGap buf s k = true →
      ∃ g, bestGapFrom buf s hi = some g := by
  intro hi
  induction hi with
  | zero =>
    intro k hk hv
    have hk0 : k = 0 := Nat.le_zero.mp hk
    subst hk0
    simp [validGap] at hv
  | succ h ih =>
    intro k hk hv
    by_cases hvh : validGap buf s (h + 1) = true
    · exact ⟨h + 1, by simp [bestGapFrom, hvh]⟩
    · have hne : k ≠ h + 1 := fun e => hvh (e ▸ hv)
      obtain ⟨g, hg⟩ := ih k (by omega) hv
      exact ⟨g, by simp [bestGapFrom, hvh, hg]⟩

lemma bestGapFrom_valid (buf : List Nat) (s : Nat) :
    ∀ hi g : Nat, bestGapFrom buf s hi = some g → validGap buf s g = true := by
  intro hi
  induction hi with
  | zero => intro g hg; simp [bestGapFrom] at hg
  | succ h ih =>
    intro g hg
    by_cases hvh : validGap buf s (h + 1) = true
    · simp only [bestGapFrom, hvh, if_true, Option.some.injEq] at hg
      rw [← hg]
      exact hvh
    · simp only [bestGapFrom, hvh, if_false] at hg
      exact ih g hg

lemma hasRSDS_le {buf : List Nat} {s : Nat} (h : hasRSDS buf s = true) :
    s + 4 ≤ buf.length := by
  simp only [hasRSDS, listAt, beq_iff_eq] at h
  have hlen := congrArg List.length h
  simp only [List.length_take, List.length_drop, rsdsSig] at hlen
  rw [show [82, 83, 68, 83].length = 4 from rfl, min_eq_left_iff] at hlen
  omega

lemma matchEndAt_some {buf : List Nat} {s e : Nat} (h : matchEndAt buf s = some e) :
    hasRSDS buf s = true ∧ ∃ k, validGap buf s k = true ∧ e = s + 8 + k := by
  by_cases hr : hasRSDS buf s = true
  · simp only [matchEndAt, hr, if_true, Option.map_eq_some'] at h
    obtain ⟨k, hk1, hk2⟩ := h
    exact ⟨hr, k, bestGapFrom_valid buf s 1024 k hk1, hk2.symm⟩
  · simp [matchEndAt, hr] at h

lemma matchEndAt_isSome_of_occ {buf : List Nat} {s k : Nat}
    (h : specOccursAt buf s k = true) : ∃ e, matchEndAt buf s = some e := by
  simp only [specOccursAt, Bool.and_eq_true] at h
  obtain ⟨hr, hv⟩ := h
  obtain ⟨g, hg⟩ := bestGapFrom_isSome buf s 1024 k (validGap_props hv).2.1 hv
  exact ⟨s + 8 + g, by simp [matchEndAt, hr, hg]⟩

lemma rsdsScan_ne_nil (buf : List Nat) :
    ∀ fuel s p : Nat, s ≤ p → p < buf.length →
      (∃ e, matchEndAt buf p = some e) →
      buf.length + 1 ≤ fuel + s → rsdsScan buf fuel s ≠ [] := by
  intro fuel
  induction fuel with
  | zero => intro s p h1 h2 _ h4; omega
  | succ f ih =>
    intro s p h1 h2 hm h4
    have hs : ¬ (buf.length ≤ s) := by omega
    rw [rsdsScan, if_neg hs]
    cases hme : matchEndAt buf s with
    | some e => simp
    | none =>
      have hsp : s ≠ p := by
        rintro rfl
        obtain ⟨e, he⟩ := hm
        rw [hme] at he
        exact Option.noConfusion he
      exact ih (s + 1) p (by omega) h2 hm (by omega)

lemma rsdsScan_sound (buf : List Nat) :
    ∀ (fuel s : Nat) (m : List Nat), m ∈ rsdsScan buf fuel s →
      ∃ s' e, matchEndAt buf s' = some e ∧ m = listAt buf s' (e - s') := by
  intro fuel
  induction fuel with
  | zero => intro s m hm; simp [rsdsScan] at hm
  | succ f ih =>
    intro s m hm
    rw [rsdsScan] at hm
    by_cases hs : buf.length ≤ s
    · rw [if_pos hs] at hm
      simp at hm
    · rw [if_neg hs] at hm
      cases hme : matchEndAt buf s with
      | some e =>
        simp only [hme] at hm
        rcases List.mem_cons.mp hm with h | h
        · exact ⟨s, e, hme, h⟩
        · exact ih e m h
      | none =>
        simp only [hme] at hm
        exact ih (s + 1) m hm

lemma match_length {buf : List Nat} {s e : Nat} (h : matchEndAt buf s = some e) :
    (listAt buf s (e - s)).length = e - s ∧ 32 ≤ e - s := by
  obtain ⟨hr, k, hv, he⟩ := matchEndAt_some h
  obtain ⟨h24, h1024, hb⟩ := validGap_props hv
  subst he
  constructor
  · simp only [listAt, List.length_take, List.length_drop]
    have h1 : s + 8 + k - s = 8 + k := by omega
    rw [h1, Nat.min_eq_left (by omega)]
  · omega

lemma specHasOcc_elim {buf : List Nat} (h : specHasOcc buf = true) :
    ∃ s k, specOccursAt buf s k = true := by
  simp only [specHasOcc, List.any_eq_true] at h
  obtain ⟨s, _, k, _, hk⟩ := h
  exact ⟨s, k, hk⟩

lemma specHasOcc_intro {buf : List Nat} {s k : Nat} (h : specOccursAt buf s k = true) :
    specHasOcc buf = true := by
  have hr : hasRSDS buf s = true := by
    simp only [specOccursAt, Bool.and_eq_true] at h
    exact h.1
  have hv : validGap buf s k = true := by
    simp only [specOccursAt, Bool.and_eq_true] at h
    exact h.2
  have hs4 := hasRSDS_le hr
  obtain ⟨_, h1024, _⟩ := validGap_props hv
  simp only [specHasOcc, List.any_eq_true]
  exact ⟨s, List.mem_range.mpr (by omega), k, List.mem_range.mpr (by omega), h⟩

lemma findall_ne_nil_occ {buf : List Nat} (h : rsdsFindall buf ≠ []) :
    specHasOcc buf = true := by
  obtain ⟨m, _, hmem⟩ := getLast?_exists_of_ne_nil _ h
  obtain ⟨s, e, hme, _⟩ := rsdsScan_sound buf _ _ m hmem
  obtain ⟨hr, k, hv, _⟩ := matchEndAt_some hme
  exact @specHasOcc_intro buf s k (by simp [specOccursAt, hr, hv])

set_option maxRecDepth 10000

/-- A well-formed RSDS record: `RSDS`, a 16-byte GUID, a 4-byte age (`5`),
the path `abcd.pdb`. -/
def rsdsSampleBuf : List Nat :=
  rsdsSig ++ [1, 2, 3, 4, 5, 6, 7, 8, 9, 16, 11, 12, 13, 14, 15, 16]
    ++ [5, 0, 0, 0] ++ [97, 98, 99, 100] ++ pdbSig

/-- The signature `RSDS`, then a 24-byte gap whose first byte is the newline byte `0x0A`,
then `.pdb`: an occurrence of the claim's pattern (arbitrary gap bytes) that
the source's regex does not match. -/
def rsdsNewlineBuf : List Nat := rsdsSig ++ (10 :: List.replicate 23 0) ++ pdbSig

/-- Two overlapping occurrences: `RSDS` at offset 0 and again at offset 4,
a 24-byte zero gap, one `.pdb`.  The last occurrence starts at offset 4, but
the greedy non-overlapping scan matches once, from offset 0. -/
def rsdsDecoyBuf : List Nat := rsdsSig ++ rsdsSig ++ List.replicate 24 0 ++ pdbSig

/-- Counterexample to claim C3 as stated, in two parts.
First: `rsdsNewlineBuf` contains an occurrence of the claim's pattern
(`RSDS` + 24 *arbitrary* bytes + `.pdb`), yet `parseRSDS` returns the empty
result — the regex dot refuses the newline byte.
Second: in `rsdsDecoyBuf` the last occurrence of the pattern starts at
offset 4 (no occurrence starts later), yet `parseRSDS` decodes the match
starting at offset 0 — greedy non-overlapping scanning subsumes the later
occurrence — so the decoded record is not the decoding of the last
occurrence. -/
theorem parseRSDS_claim_cex :
    (specHasArbOcc rsdsNewlineBuf = true ∧ parseRSDS rsdsNewlineBuf = none)
  ∧ (specOccursArbAt rsdsDecoyBuf 4 24 = true
     ∧ ((List.range 37).all (fun s => decide (s ≤ 4)
          || (List.range 1025).all (fun k => !(specOccursArbAt rsdsDecoyBuf s k)))) = true
     ∧ parseRSDS rsdsDecoyBuf = some (decodeRSDS (listAt rsdsDecoyBuf 0 36))
     ∧ parseRSDS rsdsDecoyBuf ≠ some (decodeRSDS (listAt rsdsDecoyBuf 4 32))) := by
  refine ⟨⟨by decide, by decide⟩, by decide, by decide, by decide, by decide⟩

/-- Claim C3 amended: for every buffer containing at least one occurrence of
`RSDS` + 24-1024 *newline-free* bytes + `.pdb`, `parseRSDS` decodes the
*last match of the left-to-right non-overlapping greedy regex scan* into
`guid` (hex groups of `m[4:8]`, `m[8:10]`, `m[10:12]`, `m[12:20]`), `age`
(little-endian 32-bit at `m[20:24]`) and `pdb` (`m[24:]`); a buffer with no
such occurrence yields the empty result. -/
theorem parseRSDS_amended (buf : List Nat) :
    (specHasOcc buf = true →
      ∃ m, (rsdsFindall buf).getLast? = some m ∧
        parseRSDS buf = some (decodeRSDS m))
  ∧ (specHasOcc buf = false → parseRSDS buf = none) := by
  constructor
  · intro h
    obtain ⟨s, k, hocc⟩ := specHasOcc_elim h
    have hr : hasRSDS buf s = true := by
      simp only [specOccursAt, Bool.and_eq_true] at hocc
      exact hocc.1
    obtain ⟨e, he⟩ := matchEndAt_isSome_of_occ hocc
    have hlt : s < buf.length := by
      have := hasRSDS_le hr
      omega
    have hne : rsdsFindall buf ≠ [] :=
      rsdsScan_ne_nil buf (buf.length + 1) 0 s (Nat.zero_le _) hlt ⟨e, he⟩ (by omega)
    obtain ⟨m, hm, hmem⟩ := getLast?_exists_of_ne_nil _ hne
    refine ⟨m, hm, ?_⟩
    obtain ⟨s', e', hme', hmeq⟩ := rsdsScan_sound buf _ _ m hmem
    have hlen := match_length hme'
    have hm0 : ¬ (m.length = 0) := by
      rw [hmeq, hlen.1]
      omega
    simp [parseRSDS, hm, hm0]
  · intro h
    by_cases hf : rsdsFindall buf = []
    · simp [parseRSDS, hf]
    · rw [findall_ne_nil_occ hf] at h
      exact Bool.noConfusion h

/-- Witness for the amended C3 at the concrete buffer `rsdsSampleBuf`. -/
theorem parseRSDS_amended_witness :
    ∃ m, (rsdsFindall rsdsSampleBuf).getLast? = some m ∧
      parseRSDS rsdsSampleBuf = some (decodeRSDS m) :=
  (parseRSDS_amended rsdsSampleBuf).1 (by decide)
